import Mathlib

/-!
Shallow embedding of the schema-migration engine of the
`75-hard-discord-bot` repository
(`internal/database/migrations/scanner.go` and friends), together with
proofs of the specification claims about it.

Modelling conventions:
* Go strings are modelled as `List Char`.  The migration scripts the
  engine handles are ASCII, where Go's byte-indexed scanning coincides
  with character-indexed scanning.
* Go's `unicode.IsSpace` is modelled on the character set relevant to
  the scripts (ASCII whitespace plus the two Latin-1 spaces).
* Go's `strings.ToUpper` is modelled as the ASCII upshift; only ASCII
  letters can contribute to an equality with `"BEGIN;"` / `"COMMIT;"`.
* The SHA-256 checksum (`checksum.go`) is implemented concretely over
  `Nat` with explicit reduction modulo `2 ^ 32`.
* The SQL store reachable through `database/sql` is an external
  collaborator; its statement execution is an abstract parameter
  `exec : σ → List Char → Option σ` (`none` models a failed `tx.Exec`),
  and a transaction is modelled by state passing: an aborted
  `ApplyMigration` returns an error and the caller keeps the old state,
  which is exactly the effect of `defer tx.Rollback()`.
-/

namespace Mig

/-- Go `unicode.IsSpace` on the Latin-1 range (the only characters the
migration engine's inputs contain). -/
def isSpace (c : Char) : Bool :=
  c == ' ' || c == '\t' || c == '\n' || c == '\x0b' || c == '\x0c' || c == '\r'
    || c == '\u0085' || c == ' '

/-- Go `strings.ToUpper`, restricted to the ASCII upshift. -/
def toUpperChar (c : Char) : Char :=
  if 97 ≤ c.toNat ∧ c.toNat ≤ 122 then Char.ofNat (c.toNat - 32) else c

/-- Leading-whitespace removal, the first half of Go `strings.TrimSpace`. -/
def trimLeft (l : List Char) : List Char := l.dropWhile isSpace

/-- Trailing-whitespace removal, the second half of Go `strings.TrimSpace`. -/
def trimRight (l : List Char) : List Char := l.rdropWhile isSpace

/-- Go `strings.TrimSpace`. -/
def trimSpace (l : List Char) : List Char := trimRight (trimLeft l)

/-- Go `strings.Split(s, "\n")`, used by `stripTransactionStatements`. -/
def splitLines : List Char → List (List Char)
  | [] => [[]]
  | c :: cs =>
    if c = '\n' then [] :: splitLines cs
    else
      match splitLines cs with
      | [] => [[c]]
      | l :: ls => (c :: l) :: ls

/-- Go `strings.Join(lines, "\n")`. -/
def joinLines : List (List Char) → List Char
  | [] => []
  | [l] => l
  | l :: l' :: ls => l ++ '\n' :: joinLines (l' :: ls)

/-- Bool test that `pat` is an initial segment of `s` (Go `sql[i:i+n] == tag`
including the `i+n <= len(sql)` bounds check). -/
def startsWithL (pat s : List Char) : Bool := s.take pat.length == pat

/-- Bool test that `pat` is a final segment of `s` (Go `strings.HasSuffix`). -/
def endsWithL (pat s : List Char) : Bool := startsWithL pat.reverse s.reverse

/-- Go `strings.TrimSuffix`. -/
def trimSuffix (suf s : List Char) : List Char :=
  if endsWithL suf s then s.take (s.length - suf.length) else s

/-- Go `strings.SplitN(s, sep, 2)`: one part if `sep` is absent, otherwise
the segment before the first `sep` and everything after it. -/
def splitN2 (sep : Char) (s : List Char) : List (List Char) :=
  if sep ∈ s then
    [s.takeWhile (fun c => ¬ c = sep), (s.dropWhile (fun c => ¬ c = sep)).tail]
  else [s]

/-- Decimal digit value used by the `strconv.Atoi` model. -/
def digitVal (c : Char) : Option Nat :=
  if 48 ≤ c.toNat ∧ c.toNat ≤ 57 then some (c.toNat - 48) else none

/-- Accumulating decimal parser: fails on the first non-digit. -/
def parseDigitsAux : Nat → List Char → Option Nat
  | acc, [] => some acc
  | acc, c :: cs =>
    match digitVal c with
    | some d => parseDigitsAux (acc * 10 + d) cs
    | none => none

/-- Nonempty all-digit string to `Nat`. -/
def parseNatDigits (l : List Char) : Option Nat :=
  if l.isEmpty then none else parseDigitsAux 0 l

/-- Go `strconv.Atoi`: an optionally signed decimal integer.  The Go
version additionally fails on 64-bit overflow, which migration version
numbers never approach; the model uses unbounded `Int`. -/
def atoi : List Char → Option Int
  | '-' :: rest => (parseNatDigits rest).map (fun n => -(n : Int))
  | '+' :: rest => (parseNatDigits rest).map (fun n => (n : Int))
  | s => (parseNatDigits s).map (fun n => (n : Int))

/-! SHA-256 (`crypto/sha256` + `encoding/hex` as used by
`CalculateChecksum`), over `Nat` reduced modulo `2 ^ 32`. -/

/-- Word mask. -/
def m32 : Nat := 4294967296

/-- Right rotation of a 32-bit word. -/
def rotr (n x : Nat) : Nat := ((x >>> n) ||| (x <<< (32 - n))) % m32

/-- Bitwise complement of a 32-bit word. -/
def not32 (x : Nat) : Nat := Nat.xor x 4294967295

/-- UTF-8 encoding of one character, matching Go's `[]byte(string)`. -/
def utf8Bytes (c : Char) : List Nat :=
  let n := c.toNat
  if n < 128 then [n]
  else if n < 2048 then [192 + n / 64, 128 + n % 64]
  else if n < 65536 then [224 + n / 4096, 128 + (n / 64) % 64, 128 + n % 64]
  else [240 + n / 262144, 128 + (n / 4096) % 64, 128 + (n / 64) % 64, 128 + n % 64]

/-- UTF-8 byte sequence of a string. -/
def utf8Encode (s : List Char) : List Nat := s.flatMap utf8Bytes

/-- Big-endian bytes of `n`, width `k`. -/
def beBytes (k n : Nat) : List Nat :=
  (List.range k).map (fun i => (n >>> (8 * (k - 1 - i))) % 256)

/-- SHA-256 message padding. -/
def sha256Pad (msg : List Nat) : List Nat :=
  msg ++ 128 :: List.replicate ((119 - msg.length % 64) % 64) 0
    ++ beBytes 8 (8 * msg.length)

/-- Group bytes into big-endian 32-bit words. -/
def bytesToWords : List Nat → List Nat
  | b0 :: b1 :: b2 :: b3 :: rest =>
    (((b0 * 256 + b1) * 256 + b2) * 256 + b3) :: bytesToWords rest
  | _ => []

/-- SHA-256 round constants. -/
def sha256K : List Nat :=
  [1116352408, 1899447441, 3049323471, 3921009573, 961987163, 1508970993,
   2453635748, 2870763221, 3624381080, 310598401, 607225278, 1426881987,
   1925078388, 2162078206, 2614888103, 3248222580, 3835390401, 4022224774,
   264347078, 604807628, 770255983, 1249150122, 1555081692, 1996064986,
   2554220882, 2821834349, 2952996808, 3210313671, 3336571891, 3584528711,
   113926993, 338241895, 666307205, 773529912, 1294757372, 1396182291,
   1695183700, 1986661051, 2177026350, 2456956037, 2730485921, 2820302411,
   3259730800, 3345764771, 3516065817, 3600352804, 4094571909, 275423344,
   430227734, 506948616, 659060556, 883997877, 958139571, 1322822218,
   1537002063, 1747873779, 1955562222, 2024104815, 2227730452, 2361852424,
   2428436474, 2756734187, 3204031479, 3329325298]

/-- SHA-256 initial hash value. -/
def sha256H0 : List Nat :=
  [1779033703, 3144134277, 1013904242, 2773480762, 1359893119, 2600822924,
   528734635, 1541459225]

/-- Message-schedule sigma-0. -/
def ssig0 (x : Nat) : Nat := Nat.xor (Nat.xor (rotr 7 x) (rotr 18 x)) (x >>> 3)

/-- Message-schedule sigma-1. -/
def ssig1 (x : Nat) : Nat := Nat.xor (Nat.xor (rotr 17 x) (rotr 19 x)) (x >>> 10)

/-- Round-function Sigma-0. -/
def bsig0 (x : Nat) : Nat := Nat.xor (Nat.xor (rotr 2 x) (rotr 13 x)) (rotr 22 x)

/-- Round-function Sigma-1. -/
def bsig1 (x : Nat) : Nat := Nat.xor (Nat.xor (rotr 6 x) (rotr 11 x)) (rotr 25 x)

/-- Extend the 16-word schedule to 64 words. -/
def extendSchedule : Nat → List Nat → List Nat
  | 0, w => w
  | n + 1, w =>
    let i := w.length
    extendSchedule n (w ++
      [(w.getD (i - 16) 0 + ssig0 (w.getD (i - 15) 0) + w.getD (i - 7) 0
        + ssig1 (w.getD (i - 2) 0)) % m32])

/-- One SHA-256 round on the 8-word working state. -/
def sha256Round (st : List Nat) (kw : Nat × Nat) : List Nat :=
  match st with
  | [a, b, c, d, e, f, g, h] =>
    let ch := Nat.xor (Nat.land e f) (Nat.land (not32 e) g)
    let maj := Nat.xor (Nat.xor (Nat.land a b) (Nat.land a c)) (Nat.land b c)
    let t1 := (h + bsig1 e + ch + kw.1 + kw.2) % m32
    let t2 := (bsig0 a + maj) % m32
    [(t1 + t2) % m32, a, b, c, (d + t1) % m32, e, f, g]
  | other => other

/-- Compress one 64-byte block into the hash state. -/
def sha256Compress (h : List Nat) (block : List Nat) : List Nat :=
  let w := extendSchedule 48 (bytesToWords block)
  let st := (sha256K.zip w).foldl (fun s kw => sha256Round s kw) h
  List.zipWith (fun a b => (a + b) % m32) h st

/-- Iterate the compression function over all blocks (fuel = block count). -/
def sha256Blocks : Nat → List Nat → List Nat → List Nat
  | 0, _, h => h
  | n + 1, bytes, h => sha256Blocks n (bytes.drop 64) (sha256Compress h (bytes.take 64))

/-- SHA-256 digest (32 bytes) of a byte sequence. -/
def sha256 (msg : List Nat) : List Nat :=
  let padded := sha256Pad msg
  let h := sha256Blocks (padded.length / 64) padded sha256H0
  h.flatMap (beBytes 4)

/-- Lower-case hex digit. -/
def hexDigit (n : Nat) : Char :=
  if n < 10 then Char.ofNat (48 + n) else Char.ofNat (87 + n)

/-- Go `hex.EncodeToString`. -/
def hexEncode (bytes : List Nat) : List Char :=
  bytes.flatMap (fun b => [hexDigit (b / 16), hexDigit (b % 16)])

/-- Go `CalculateChecksum` (`checksum.go`): lower-case hex of the SHA-256
digest of the UTF-8 bytes of `content`. -/
def CalculateChecksum (content : List Char) : List Char :=
  hexEncode (sha256 (utf8Encode content))

/-! The migration engine (`scanner.go`). -/

/-- A migration script line dropped by `stripTransactionStatements`:
its upper-cased trimmed content is a bare `BEGIN` / `COMMIT`, with or
without a trailing semicolon (the code's `continue` condition). -/
def isTxnControlLine (line : List Char) : Bool :=
  let upperTrimmed := (trimSpace line).map toUpperChar
  upperTrimmed == "BEGIN;".toList || upperTrimmed == "COMMIT;".toList
    || upperTrimmed == "BEGIN".toList || upperTrimmed == "COMMIT".toList

/-- Go `stripTransactionStatements`: drop the transaction-control lines,
rejoin with newlines and trim the result. -/
def stripTransactionStatements (sql : List Char) : List Char :=
  trimSpace (joinLines ((splitLines sql).filter (fun l => ! isTxnControlLine l)))

/-- One statement is flushed into the output list exactly when its trim
is neither empty nor a lone semicolon (the mid-loop guard of
`splitSQLStatements`). -/
def flushStmt (stmts : List (List Char)) (cur : List Char) : List (List Char) :=
  let stmt := trimSpace cur
  if stmt ≠ [] ∧ stmt ≠ [';'] then stmts ++ [stmt] else stmts

/-- The character loop of Go `splitSQLStatements`, position `i` being
represented by the remaining suffix `rest`.  The loop is not structurally
recursive on `rest`: in the branch where the closing dollar tag is
recognised, the Go code resets `dollarTag` to the empty string and only
then advances `i += len(dollarTag)`, so `i` does not move (the suffix is
unchanged) and only the quote flag flips.  A fuel parameter makes the
recursion structural; `2 * length + 1` fuel is more than any run consumes,
since every fuel step either consumes input or flips the quote flag off,
and the flag can only be flipped off as often as input is consumed. -/
def splitLoop : Nat → Bool → List Char → List (List Char) → List Char → List Char →
    List (List Char)
  | _, _, _, stmts, cur, [] =>
    -- end of input: append the remaining statement if nonempty after trim
    if trimSpace cur ≠ [] then stmts ++ [trimSpace cur] else stmts
  | 0, _, _, stmts, cur, _ :: _ =>
    -- unreachable with the fuel supplied below; flush as at end of input
    if trimSpace cur ≠ [] then stmts ++ [trimSpace cur] else stmts
  | fuel + 1, inDollarQuote, dollarTag, stmts, cur, c :: rs =>
    if ¬ inDollarQuote ∧ c = '$' then
      -- dollar-quote start: scan forward for the closing '$' of the tag
      if '$' ∈ rs then
        let tag := '$' :: rs.takeWhile (fun x => ¬ x = '$') ++ ['$']
        splitLoop fuel true tag stmts (cur ++ tag)
          ((rs.dropWhile (fun x => ¬ x = '$')).tail)
      else
        -- no closing '$': a regular character
        splitLoop fuel inDollarQuote dollarTag stmts (cur ++ [c]) rs
    else if inDollarQuote then
      if startsWithL dollarTag (c :: rs) then
        -- closing tag found: the tag is written and the flag cleared, but
        -- the position does not advance (`i += len(dollarTag)` runs after
        -- `dollarTag` was reset to the empty string)
        splitLoop fuel false [] stmts (cur ++ dollarTag) (c :: rs)
      else
        splitLoop fuel inDollarQuote dollarTag stmts (cur ++ [c]) rs
    else
      -- outside a dollar quote: copy the character, split on ';'
      if c = ';' then
        splitLoop fuel inDollarQuote dollarTag (flushStmt stmts (cur ++ [c])) [] rs
      else
        splitLoop fuel inDollarQuote dollarTag stmts (cur ++ [c]) rs

/-- Go `splitSQLStatements`. -/
def splitSQLStatements (sql : List Char) : List (List Char) :=
  splitLoop (2 * sql.length + 1) false [] [] [] sql

/-- A migration as produced by the scanner (`Migration` struct; the
`Checksum` and `AppliedAt` fields are only populated on ledger rows and
are modelled there). -/
structure Migration where
  Version : Int
  Name : List Char
  SQL : List Char
deriving DecidableEq

/-- A row of the `schema_migrations` ledger table.  The `applied_at`
column is filled by the database (`DEFAULT NOW()`) and never read by the
engine, so it is not modelled. -/
structure LedgerEntry where
  version : Int
  name : List Char
  checksum : List Char
deriving DecidableEq

/-- The live store: an abstract schema state (the external SQL engine's
data) plus the ledger table owned by the migration manager.
`EnsureMigrationsTable` is idempotent creation of the ledger table; the
model represents the table as the always-present `ledger` list, so it is
a no-op. -/
structure DB (σ : Type) where
  schema : σ
  ledger : List LedgerEntry
deriving DecidableEq

/-- A directory entry of the migration source (spec §6: list entries as
name plus is-directory flag, read content as text). -/
structure DirEntry where
  name : List Char
  isDir : Bool
  content : List Char
deriving DecidableEq

/-- Structured forms of the errors `scanner.go` returns as `fmt.Errorf`
values. -/
inductive RunError where
  | invalidFilename (filename : List Char)
  | checksumMismatch (version : Int) (name : List Char)
  | applyError (version : Int) (name : List Char) (stmtIndex : Nat)
  | recordError (version : Int) (name : List Char)
deriving DecidableEq

/-- The discovery loop of Go `ScanMigrationFiles`: skip directories,
skip names without the `.sql` suffix, skip names without a `_`
separator, fail on a version token `strconv.Atoi` rejects, otherwise
build the migration from the parsed version, the name remainder and the
file content. -/
def scanFiles : List DirEntry → Except RunError (List Migration)
  | [] => .ok []
  | e :: rest =>
    if e.isDir then scanFiles rest
    else if ¬ endsWithL ".sql".toList e.name then scanFiles rest
    else
      let parts := splitN2 '_' e.name
      if parts.length < 2 then scanFiles rest
      else
        match atoi (parts.getD 0 []) with
        | none => .error (.invalidFilename e.name)
        | some version =>
          (scanFiles rest).map (fun ms =>
            ⟨version, trimSuffix ".sql".toList (parts.getD 1 []), e.content⟩ :: ms)

/-- Version comparison used for the final `sort.Slice`. -/
def versionLE (a b : Migration) : Bool := a.Version ≤ b.Version

/-- Insert a migration into a version-sorted list. -/
def insertSorted (m : Migration) : List Migration → List Migration
  | [] => [m]
  | x :: xs => if versionLE m x then m :: x :: xs else x :: insertSorted m xs

/-- Sort ascending by version (insertion sort).  Go's `sort.Slice` is an
unstable sort whose order on version ties is unspecified; the model
commits to one sorted outcome. -/
def sortByVersion : List Migration → List Migration
  | [] => []
  | x :: xs => insertSorted x (sortByVersion xs)

/-- Go `ScanMigrationFiles` over a directory listing: the discovery loop
followed by the sort ascending by version. -/
def scanMigrationFiles (entries : List DirEntry) : Except RunError (List Migration) :=
  (scanFiles entries).map sortByVersion

/-- The ledger lookup backing `GetAppliedMigrations`: Go builds a map
keyed by version from the ledger rows; with at most one row per version
(the data-model invariant) this is the first row carrying the version. -/
def lookupApplied (ledger : List LedgerEntry) (v : Int) : Option LedgerEntry :=
  ledger.find? (fun e => e.version == v)

/-- The statement loop of `ApplyMigration`: trim each statement, skip
empties, execute the rest in order against the transaction state; a
failure reports the 1-based position in the split list.  `exec` models
`tx.Exec` of the external SQL engine. -/
def execStatements {σ : Type} (exec : σ → List Char → Option σ) :
    σ → List (List Char) → Nat → Except Nat σ
  | s, [], _ => .ok s
  | s, stmt :: rest, i =>
    let t := trimSpace stmt
    if t = [] then execStatements exec s rest (i + 1)
    else
      match exec s t with
      | none => .error (i + 1)
      | some s' => execStatements exec s' rest (i + 1)

/-- Go `ApplyMigration`: inside one transaction, strip transaction
control, split, execute every statement, then insert the ledger row
recording the checksum of the stripped script, and commit.  An error
result models `tx.Rollback`: the caller keeps the previous store state.
The insert fails exactly when the `(version, name)` primary key is
already present; the commit of the external engine is modelled as
succeeding. -/
def ApplyMigration {σ : Type} (exec : σ → List Char → Option σ) (db : DB σ)
    (migration : Migration) : Except RunError (DB σ) :=
  let sql := stripTransactionStatements migration.SQL
  let statements := splitSQLStatements sql
  match execStatements exec db.schema statements 0 with
  | .error i => .error (.applyError migration.Version migration.Name i)
  | .ok schema' =>
    let checksum := CalculateChecksum sql
    if db.ledger.any (fun e => e.version == migration.Version && e.name == migration.Name)
    then .error (.recordError migration.Version migration.Name)
    else .ok ⟨schema', db.ledger ++ [⟨migration.Version, migration.Name, checksum⟩]⟩

/-- Go `ValidateChecksums`: for each migration already present in the
ledger, accept if the stored checksum equals the digest of the stripped
script or the digest of the raw script; otherwise fail naming the
migration. -/
def ValidateChecksums (ledger : List LedgerEntry) : List Migration → Option RunError
  | [] => none
  | migration :: rest =>
    match lookupApplied ledger migration.Version with
    | none => ValidateChecksums ledger rest
    | some appliedMig =>
      if CalculateChecksum (stripTransactionStatements migration.SQL) ≠ appliedMig.checksum
          ∧ CalculateChecksum migration.SQL ≠ appliedMig.checksum
      then some (.checksumMismatch migration.Version migration.Name)
      else ValidateChecksums ledger rest

/-- Result of a `Run`: final store state, number of migrations newly
applied, the migrations handed to `ApplyMigration` in order (the ghost
trace mirroring the per-migration log lines), and the error if any. -/
structure RunOutcome (σ : Type) where
  db : DB σ
  appliedCount : Nat
  trace : List Migration
  err : Option RunError
deriving DecidableEq

/-- The pending-application loop of Go `Run` (step 5): skip migrations
whose version is in the applied snapshot taken before the loop, apply
the rest, abort on the first failure. -/
def runLoop {σ : Type} (exec : σ → List Char → Option σ) (applied : Int → Bool) :
    List Migration → DB σ → Nat → List Migration → RunOutcome σ
  | [], db, n, tr => ⟨db, n, tr, none⟩
  | m :: rest, db, n, tr =>
    if applied m.Version then runLoop exec applied rest db n tr
    else
      match ApplyMigration exec db m with
      | .error e => ⟨db, n, tr ++ [m], some e⟩
      | .ok db' => runLoop exec applied rest db' (n + 1) (tr ++ [m])

/-- Go `Run`: ensure the ledger table (a no-op in the model), scan the
source listing, return successfully on an empty migration set, validate
checksums of applied migrations, then apply the pending ones in order. -/
def Run {σ : Type} (exec : σ → List Char → Option σ) (entries : List DirEntry)
    (db : DB σ) : RunOutcome σ :=
  match scanMigrationFiles entries with
  | .error e => ⟨db, 0, [], some e⟩
  | .ok migrations =>
    if migrations.isEmpty then ⟨db, 0, [], none⟩
    else
      match ValidateChecksums db.ledger migrations with
      | some e => ⟨db, 0, [], some e⟩
      | none =>
        runLoop exec (fun v => (lookupApplied db.ledger v).isSome) migrations db 0 []

/-! Auxiliary definitions used only to state and prove the claims. -/

/-- Case-insensitive string equality, as the spec words it (§4.2:
"trimmed, case-insensitive content"). -/
def ciEq (a b : List Char) : Bool := a.map toUpperChar == b.map toUpperChar

/-- Transaction-control line predicate written from the specification's
words: a line whose trimmed, case-insensitive content is exactly a
"begin transaction" or "commit transaction" marker, with or without the
trailing terminator.  Stated independently of `isTxnControlLine` to
compare code against spec. -/
def specTxnControlLine (line : List Char) : Bool :=
  ciEq (trimSpace line) "begin".toList || ciEq (trimSpace line) "begin;".toList
    || ciEq (trimSpace line) "commit".toList || ciEq (trimSpace line) "commit;".toList

/-- Whitespace-only string. -/
def allSpace (l : List Char) : Bool := l.all isSpace

/-- Effect of `trimLeft` on a nonempty list of newline-free lines:
whitespace-only leading lines disappear and the first surviving line
loses its leading whitespace. -/
def dropTrimL : List (List Char) → List (List Char)
  | [] => []
  | [l] => [trimLeft l]
  | l :: l' :: ls => if allSpace l then dropTrimL (l' :: ls) else trimLeft l :: l' :: ls

/-- Effect of `trimRight` on a nonempty list of newline-free lines:
whitespace-only trailing lines disappear and the last surviving line
loses its trailing whitespace. -/
def dropTrimR : List (List Char) → List (List Char)
  | [] => []
  | [l] => [trimRight l]
  | l :: l' :: ls =>
    if allSpace (joinLines (l' :: ls)) then [trimRight l] else l :: dropTrimR (l' :: ls)

/-- No line of `x` is a transaction-control line. -/
def noMarkerLines (x : List Char) : Prop :=
  ∀ l ∈ splitLines x, isTxnControlLine l = false

/-- The ledger row `ApplyMigration` inserts for a migration it applies. -/
def pendingEntry (m : Migration) : LedgerEntry :=
  ⟨m.Version, m.Name, CalculateChecksum (stripTransactionStatements m.SQL)⟩

/-! Concrete fixtures for witnesses and counterexamples. -/

/-- Trivial statement executor: every statement succeeds and the schema
state is `Unit`. -/
def execOK : Unit → List Char → Option Unit := fun _ _ => some ()

/-- Executor that fails exactly on the statement `y;`. -/
def execFailY : Unit → List Char → Option Unit :=
  fun _ stmt => if stmt = "y;".toList then none else some ()

/-- Empty store over the trivial schema state. -/
def db0U : DB Unit := ⟨(), []⟩

/-- Claim C1's script: a labeled dollar-delimited block with interior
semicolons, the closing marker followed by a terminator, then one
trailing statement. -/
def c1Script : List Char := "$body$ x; y; $body$;\nSELECT 1;".toList

/-- Listing with two migration files sharing version 1. -/
def entriesDup : List DirEntry :=
  [⟨"0001_a.sql".toList, false, "a;".toList⟩,
   ⟨"0001_b.sql".toList, false, "b;".toList⟩]

/-- Listing whose only file has the script extension but no separator. -/
def entriesNoSep : List DirEntry := [⟨"nope.sql".toList, false, "x;".toList⟩]

/-- Listing with one well-formed file and one whose version token is not
numeric. -/
def entriesBadVersion : List DirEntry :=
  [⟨"0001_a.sql".toList, false, "a;".toList⟩,
   ⟨"ver_b.sql".toList, false, "b;".toList⟩]

/-- Listing with a single well-formed migration file. -/
def entriesSingle : List DirEntry := [⟨"0001_a.sql".toList, false, "a;".toList⟩]

/-- Listing of one migration whose second statement is `y;`. -/
def entriesFailing : List DirEntry :=
  [⟨"0001_m.sql".toList, false, "x;\ny;\nz;".toList⟩]

/-- Script wrapped in its own transaction-control lines. -/
def s6Script : List Char := "BEGIN;\nCREATE TABLE t (x INTEGER);\nCOMMIT;".toList

/-- Migration carrying `s6Script`. -/
def mig6 : Migration := ⟨1, "create_t".toList, s6Script⟩

/-- Migration whose script strips to nothing. -/
def mig9 : Migration := ⟨1, "empty".toList, "BEGIN;\nCOMMIT;".toList⟩

/-- Store whose ledger holds version 1 under a checksum that is not a
SHA-256 digest of anything on disk. -/
def dbBadChecksum : DB Unit := ⟨(), [⟨1, "a".toList, "notadigest".toList⟩]⟩

/-! Lemmas about trimming. -/

theorem trimLeft_cons_of_space {c : Char} (l : List Char) (h : isSpace c = true) :
    trimLeft (c :: l) = trimLeft l := by
  simp [trimLeft, List.dropWhile_cons, h]

theorem trimLeft_cons_of_not_space {c : Char} (l : List Char) (h : isSpace c = false) :
    trimLeft (c :: l) = c :: l := by
  simp [trimLeft, List.dropWhile_cons, h]

theorem trimLeft_eq_nil_iff {l : List Char} : trimLeft l = [] ↔ allSpace l = true := by
  simp [trimLeft, allSpace, List.dropWhile_eq_nil_iff, List.all_eq_true]

theorem trimRight_eq_nil_iff {l : List Char} : trimRight l = [] ↔ allSpace l = true := by
  simp [trimRight, allSpace, List.rdropWhile_eq_nil_iff, List.all_eq_true]

theorem allSpace_reverse_iff {l : List Char} :
    (∀ x ∈ l.reverse, isSpace x = true) ↔ allSpace l = true := by
  simp [allSpace, List.all_eq_true]

theorem trimLeft_append (a b : List Char) :
    trimLeft (a ++ b) = if allSpace a then trimLeft b else trimLeft a ++ b := by
  simp only [trimLeft, List.dropWhile_append]
  rcases h : List.dropWhile isSpace a with _ | ⟨x, xs⟩
  · have ha : allSpace a = true := trimLeft_eq_nil_iff.mp h
    rw [ha]
    simp
  · have hfa : allSpace a = false := by
      cases hh : allSpace a
      · rfl
      · have h2 : List.dropWhile isSpace a = [] := trimLeft_eq_nil_iff.mpr hh
        rw [h] at h2
        cases h2
    rw [hfa]
    simp

theorem trimRight_cons (c : Char) (l : List Char) :
    trimRight (c :: l) =
      if trimRight l = [] then (if isSpace c then [] else [c]) else c :: trimRight l := by
  have hrw : trimRight (c :: l) = (List.dropWhile isSpace (l.reverse ++ [c])).reverse := by
    simp [trimRight, List.rdropWhile]
  rw [hrw, List.dropWhile_append]
  rcases hd : List.dropWhile isSpace l.reverse with _ | ⟨x, xs⟩
  · have ht : trimRight l = [] := by simp [trimRight, List.rdropWhile, hd]
    rw [if_pos ht]
    cases hc : isSpace c <;> simp [List.dropWhile, hc]
  · have ht : trimRight l = (x :: xs).reverse := by simp [trimRight, List.rdropWhile, hd]
    rw [if_neg (by simp : ¬((x :: xs).isEmpty = true)), if_neg (by rw [ht]; simp),
      List.reverse_append, ht]
    simp

theorem trimRight_append (a b : List Char) :
    trimRight (a ++ b) = if allSpace b then trimRight a else a ++ trimRight b := by
  have hrw : trimRight (a ++ b) = (List.dropWhile isSpace (b.reverse ++ a.reverse)).reverse := by
    simp [trimRight, List.rdropWhile]
  rw [hrw, List.dropWhile_append]
  rcases hd : List.dropWhile isSpace b.reverse with _ | ⟨x, xs⟩
  · have hb : allSpace b = true :=
      allSpace_reverse_iff.mp (List.dropWhile_eq_nil_iff.mp hd)
    rw [hb]
    simp [trimRight, List.rdropWhile]
  · have hb : allSpace b = false := by
      cases hh : allSpace b
      · rfl
      · have h2 := List.dropWhile_eq_nil_iff.mpr (allSpace_reverse_iff.mpr hh)
        rw [hd] at h2
        cases h2
    rw [hb]
    simp only [List.isEmpty_cons, Bool.false_eq_true, if_false, List.reverse_append,
      List.reverse_reverse]
    have ht : trimRight b = (x :: xs).reverse := by simp [trimRight, List.rdropWhile, hd]
    rw [ht]

theorem trimLeft_idem (l : List Char) : trimLeft (trimLeft l) = trimLeft l :=
  List.dropWhile_idempotent isSpace l

theorem trimRight_idem (l : List Char) : trimRight (trimRight l) = trimRight l :=
  List.rdropWhile_idempotent isSpace l

theorem trimLeft_trimRight_comm (l : List Char) :
    trimLeft (trimRight l) = trimRight (trimLeft l) := by
  induction l with
  | nil => rfl
  | cons c cs ih =>
    cases hc : isSpace c
    · rw [trimLeft_cons_of_not_space cs hc, trimRight_cons]
      rcases h : trimRight cs with _ | ⟨x, xs⟩
      · rw [if_pos rfl, if_neg (by simp [hc]), trimLeft_cons_of_not_space _ hc]
      · rw [if_neg (by simp), trimLeft_cons_of_not_space _ hc]
    · rw [trimLeft_cons_of_space cs hc, trimRight_cons]
      rcases h : trimRight cs with _ | ⟨x, xs⟩
      · rw [if_pos rfl, if_pos (by simp [hc]),
          trimLeft_eq_nil_iff.mpr (trimRight_eq_nil_iff.mp h)]
        rfl
      · rw [if_neg (by simp), trimLeft_cons_of_space _ hc, ← h, ih]

theorem trimSpace_idem (l : List Char) : trimSpace (trimSpace l) = trimSpace l := by
  unfold trimSpace
  rw [trimLeft_trimRight_comm (trimLeft l), trimRight_idem, trimLeft_idem]

theorem trimSpace_trimLeft (l : List Char) : trimSpace (trimLeft l) = trimSpace l := by
  unfold trimSpace
  rw [trimLeft_idem]

theorem trimSpace_trimRight (l : List Char) : trimSpace (trimRight l) = trimSpace l := by
  unfold trimSpace
  rw [← trimLeft_trimRight_comm l, ← trimLeft_trimRight_comm (trimRight l), trimRight_idem]

theorem mem_trimLeft_of_mem {c : Char} {l : List Char} (h : c ∈ l) (hs : isSpace c = false) :
    c ∈ trimLeft l := by
  induction l with
  | nil => cases h
  | cons x xs ih =>
    cases hx : isSpace x
    · rw [trimLeft_cons_of_not_space xs hx]
      exact h
    · rw [trimLeft_cons_of_space xs hx]
      rcases List.mem_cons.mp h with rfl | hm
      · rw [hx] at hs; cases hs
      · exact ih hm

theorem mem_trimRight_of_mem {c : Char} {l : List Char} (h : c ∈ l) (hs : isSpace c = false) :
    c ∈ trimRight l := by
  induction l with
  | nil => cases h
  | cons x xs ih =>
    rw [trimRight_cons]
    rcases ht : trimRight xs with _ | _
    · have hall : allSpace xs = true := trimRight_eq_nil_iff.mp ht
      rcases List.mem_cons.mp h with rfl | hm
      · simp [hs]
      · simp [allSpace, List.all_eq_true] at hall
        rw [hall c hm] at hs
        cases hs
    · simp only [reduceCtorEq, if_false]
      rcases List.mem_cons.mp h with rfl | hm
      · exact List.mem_cons_self _ _
      · rw [← ht]
        exact List.mem_cons_of_mem _ (ih hm)

theorem mem_trimSpace_of_mem {c : Char} {l : List Char} (h : c ∈ l) (hs : isSpace c = false) :
    c ∈ trimSpace l :=
  mem_trimRight_of_mem (mem_trimLeft_of_mem h hs) hs

theorem mem_of_mem_trimLeft {c : Char} {l : List Char} (h : c ∈ trimLeft l) : c ∈ l :=
  (List.dropWhile_sublist isSpace).mem h

theorem mem_of_mem_trimRight {c : Char} {l : List Char} (h : c ∈ trimRight l) : c ∈ l := by
  simp only [trimRight, List.rdropWhile, List.mem_reverse] at h
  exact List.mem_reverse.mp ((List.dropWhile_sublist isSpace).mem h)

theorem mem_of_mem_trimSpace {c : Char} {l : List Char} (h : c ∈ trimSpace l) : c ∈ l :=
  mem_of_mem_trimLeft (mem_of_mem_trimRight h)

/-! Lemmas about line splitting and joining. -/

theorem splitLines_ne_nil (s : List Char) : splitLines s ≠ [] := by
  induction s with
  | nil => simp [splitLines]
  | cons c cs ih =>
    by_cases hc : c = '\n'
    · simp [splitLines, hc]
    · simp only [splitLines, if_neg hc]
      rcases h : splitLines cs with _ | _
      · exact absurd h ih
      · simp

theorem no_newline_of_mem_splitLines {l s : List Char} (h : l ∈ splitLines s) : '\n' ∉ l := by
  induction s generalizing l with
  | nil =>
    simp [splitLines] at h
    simp [h]
  | cons c cs ih =>
    by_cases hc : c = '\n'
    · simp only [splitLines, if_pos hc] at h
      rcases List.mem_cons.mp h with rfl | hm
      · simp
      · exact ih hm
    · simp only [splitLines, if_neg hc] at h
      rcases hs : splitLines cs with _ | ⟨m, ms⟩
      · exact absurd hs (splitLines_ne_nil cs)
      · rw [hs] at h
        rcases List.mem_cons.mp h with rfl | hm
        · intro hmem
          rcases List.mem_cons.mp hmem with h1 | h2
          · exact hc h1.symm
          · exact ih (hs ▸ List.mem_cons_self m ms) h2
        · exact ih (hs ▸ List.mem_cons_of_mem m hm)

theorem joinLines_splitLines (s : List Char) : joinLines (splitLines s) = s := by
  induction s with
  | nil => rfl
  | cons c cs ih =>
    by_cases hc : c = '\n'
    · subst hc
      simp only [splitLines, if_pos rfl]
      rcases h : splitLines cs with _ | ⟨m, ms⟩
      · exact absurd h (splitLines_ne_nil cs)
      · rw [h] at ih
        show joinLines ([] :: m :: ms) = '\n' :: cs
        rw [joinLines, List.nil_append, ih]
    · simp only [splitLines, if_neg hc]
      rcases h : splitLines cs with _ | ⟨m, ms⟩
      · exact absurd h (splitLines_ne_nil cs)
      · rw [h] at ih
        rcases ms with _ | ⟨m', ms'⟩
        · show joinLines [c :: m] = c :: cs
          rw [joinLines] at ih ⊢
          rw [ih]
        · show joinLines ((c :: m) :: m' :: ms') = c :: cs
          rw [joinLines] at ih ⊢
          rw [List.cons_append, ih]

theorem splitLines_append_newline {l : List Char} (t : List Char) (h : '\n' ∉ l) :
    splitLines (l ++ '\n' :: t) = l :: splitLines t := by
  induction l with
  | nil => simp [splitLines]
  | cons c ls ih =>
    have hc : ¬ c = '\n' := fun hcc => h (hcc ▸ List.mem_cons_self c ls)
    have hnl : '\n' ∉ ls := fun hm => h (List.mem_cons_of_mem c hm)
    simp only [List.cons_append, splitLines, if_neg hc, List.append_eq, ih hnl]

theorem splitLines_of_no_newline {l : List Char} (h : '\n' ∉ l) : splitLines l = [l] := by
  induction l with
  | nil => rfl
  | cons c ls ih =>
    have hc : ¬ c = '\n' := fun hcc => h (hcc ▸ List.mem_cons_self c ls)
    have hnl : '\n' ∉ ls := fun hm => h (List.mem_cons_of_mem c hm)
    simp only [splitLines, if_neg hc, ih hnl]

theorem splitLines_joinLines {L : List (List Char)} (h : L ≠ [])
    (h2 : ∀ l ∈ L, '\n' ∉ l) : splitLines (joinLines L) = L := by
  induction L with
  | nil => exact absurd rfl h
  | cons l ls ih =>
    rcases ls with _ | ⟨l', ls'⟩
    · show splitLines (joinLines [l]) = [l]
      rw [joinLines]
      exact splitLines_of_no_newline (h2 l (List.mem_cons_self _ _))
    · show splitLines (joinLines (l :: l' :: ls')) = l :: l' :: ls'
      rw [joinLines, splitLines_append_newline _ (h2 l (List.mem_cons_self _ _))]
      rw [ih (by simp) (fun x hx => h2 x (List.mem_cons_of_mem l hx))]

/-! Effect of trimming on the line decomposition. -/

theorem isSpace_newline : isSpace '\n' = true := by decide

theorem no_newline_trimLeft {l : List Char} (h : '\n' ∉ l) : '\n' ∉ trimLeft l :=
  fun hm => h (mem_of_mem_trimLeft hm)

theorem no_newline_trimRight {l : List Char} (h : '\n' ∉ l) : '\n' ∉ trimRight l :=
  fun hm => h (mem_of_mem_trimRight hm)

theorem dropTrimL_spec {L : List (List Char)} (h : L ≠ []) (h2 : ∀ l ∈ L, '\n' ∉ l) :
    splitLines (trimLeft (joinLines L)) = dropTrimL L := by
  induction L with
  | nil => exact absurd rfl h
  | cons l ls ih =>
    rcases ls with _ | ⟨l', ls'⟩
    · show splitLines (trimLeft (joinLines [l])) = [trimLeft l]
      rw [joinLines]
      exact splitLines_of_no_newline (no_newline_trimLeft (h2 l (List.mem_cons_self _ _)))
    · show splitLines (trimLeft (joinLines (l :: l' :: ls'))) = dropTrimL (l :: l' :: ls')
      rw [joinLines, trimLeft_append, dropTrimL]
      cases ha : allSpace l
      · rw [if_neg (by simp [ha]), if_neg (by simp [ha])]
        rw [splitLines_append_newline _
          (no_newline_trimLeft (h2 l (List.mem_cons_self _ _)))]
        rw [splitLines_joinLines (by simp)
          (fun x hx => h2 x (List.mem_cons_of_mem l hx))]
      · rw [if_pos (by simp [ha]), if_pos (by simp [ha]),
          trimLeft_cons_of_space _ isSpace_newline]
        exact ih (by simp) (fun x hx => h2 x (List.mem_cons_of_mem l hx))

theorem allSpace_cons_newline (z : List Char) : allSpace ('\n' :: z) = allSpace z := by
  simp [allSpace, isSpace_newline]

theorem dropTrimR_spec {L : List (List Char)} (h : L ≠ []) (h2 : ∀ l ∈ L, '\n' ∉ l) :
    splitLines (trimRight (joinLines L)) = dropTrimR L := by
  induction L with
  | nil => exact absurd rfl h
  | cons l ls ih =>
    rcases ls with _ | ⟨l', ls'⟩
    · show splitLines (trimRight (joinLines [l])) = [trimRight l]
      rw [joinLines]
      exact splitLines_of_no_newline (no_newline_trimRight (h2 l (List.mem_cons_self _ _)))
    · show splitLines (trimRight (joinLines (l :: l' :: ls'))) = dropTrimR (l :: l' :: ls')
      rw [joinLines, trimRight_append, dropTrimR, allSpace_cons_newline]
      cases ha : allSpace (joinLines (l' :: ls'))
      · rw [if_neg (by simp [ha]), if_neg (by simp [ha]), trimRight_cons,
          if_neg (fun hz => by rw [trimRight_eq_nil_iff.mp hz] at ha; cases ha)]
        rw [splitLines_append_newline _ (h2 l (List.mem_cons_self _ _))]
        rw [ih (by simp) (fun x hx => h2 x (List.mem_cons_of_mem l hx))]
      · rw [if_pos (by simp [ha]), if_pos (by simp [ha])]
        exact splitLines_of_no_newline (no_newline_trimRight (h2 l (List.mem_cons_self _ _)))

theorem mem_dropTrimL {L : List (List Char)} {x : List Char} (hx : x ∈ dropTrimL L) :
    ∃ l ∈ L, trimSpace x = trimSpace l := by
  induction L with
  | nil => cases hx
  | cons l ls ih =>
    rcases ls with _ | ⟨l', ls'⟩
    · have : x = trimLeft l := by
        have := hx
        simp [dropTrimL] at this
        exact this
      exact ⟨l, List.mem_cons_self _ _, by rw [this, trimSpace_trimLeft]⟩
    · rw [dropTrimL] at hx
      by_cases ha : allSpace l = true
      · rw [if_pos ha] at hx
        obtain ⟨m, hm, hmt⟩ := ih hx
        exact ⟨m, List.mem_cons_of_mem l hm, hmt⟩
      · rw [if_neg ha] at hx
        rcases List.mem_cons.mp hx with rfl | hm
        · exact ⟨l, List.mem_cons_self _ _, trimSpace_trimLeft l⟩
        · exact ⟨x, List.mem_cons_of_mem l hm, rfl⟩

theorem mem_dropTrimR {L : List (List Char)} {x : List Char} (hx : x ∈ dropTrimR L) :
    ∃ l ∈ L, trimSpace x = trimSpace l := by
  induction L with
  | nil => cases hx
  | cons l ls ih =>
    rcases ls with _ | ⟨l', ls'⟩
    · have : x = trimRight l := by
        have := hx
        simp [dropTrimR] at this
        exact this
      exact ⟨l, List.mem_cons_self _ _, by rw [this, trimSpace_trimRight]⟩
    · rw [dropTrimR] at hx
      by_cases ha : allSpace (joinLines (l' :: ls')) = true
      · rw [if_pos ha] at hx
        have : x = trimRight l := by simpa using hx
        exact ⟨l, List.mem_cons_self _ _, by rw [this, trimSpace_trimRight]⟩
      · rw [if_neg ha] at hx
        rcases List.mem_cons.mp hx with rfl | hm
        · exact ⟨x, List.mem_cons_self _ _, rfl⟩
        · obtain ⟨m, hm2, hmt⟩ := ih hm
          exact ⟨m, List.mem_cons_of_mem l hm2, hmt⟩

theorem dropTrimL_ne_nil {L : List (List Char)} (h : L ≠ []) : dropTrimL L ≠ [] := by
  induction L with
  | nil => exact absurd rfl h
  | cons l ls ih =>
    rcases ls with _ | ⟨l', ls'⟩
    · simp [dropTrimL]
    · rw [dropTrimL]
      by_cases ha : allSpace l = true
      · rw [if_pos ha]
        exact ih (by simp)
      · rw [if_neg ha]
        simp

theorem no_newline_dropTrimL {L : List (List Char)} (h2 : ∀ l ∈ L, '\n' ∉ l) :
    ∀ x ∈ dropTrimL L, '\n' ∉ x := by
  induction L with
  | nil => intro x hx; cases hx
  | cons l ls ih =>
    intro x hx
    rcases ls with _ | ⟨l', ls'⟩
    · have : x = trimLeft l := by simpa [dropTrimL] using hx
      exact this ▸ no_newline_trimLeft (h2 l (List.mem_cons_self _ _))
    · rw [dropTrimL] at hx
      by_cases ha : allSpace l = true
      · rw [if_pos ha] at hx
        exact ih (fun y hy => h2 y (List.mem_cons_of_mem l hy)) x hx
      · rw [if_neg ha] at hx
        rcases List.mem_cons.mp hx with rfl | hm
        · exact no_newline_trimLeft (h2 l (List.mem_cons_self _ _))
        · exact h2 x (List.mem_cons_of_mem l hm)

/-! Preservation of the no-marker-line property. -/

theorem isTxnControlLine_congr {a b : List Char} (h : trimSpace a = trimSpace b) :
    isTxnControlLine a = isTxnControlLine b := by
  simp [isTxnControlLine, h]

theorem noMarkerLines_trimSpace {x : List Char} (h : noMarkerLines x) :
    noMarkerLines (trimSpace x) := by
  have hL1 : splitLines x ≠ [] := splitLines_ne_nil x
  have hL2 : ∀ l ∈ splitLines x, '\n' ∉ l := fun l hl => no_newline_of_mem_splitLines hl
  have hjoin : joinLines (splitLines x) = x := joinLines_splitLines x
  have hstep1 : splitLines (trimLeft x) = dropTrimL (splitLines x) := by
    conv_lhs => rw [← hjoin]
    exact dropTrimL_spec hL1 hL2
  have hjoin1 : joinLines (dropTrimL (splitLines x)) = trimLeft x := by
    rw [← hstep1, joinLines_splitLines]
  have hL1' : dropTrimL (splitLines x) ≠ [] := dropTrimL_ne_nil hL1
  have hL2' : ∀ l ∈ dropTrimL (splitLines x), '\n' ∉ l := no_newline_dropTrimL hL2
  have hstep2 : splitLines (trimSpace x) = dropTrimR (dropTrimL (splitLines x)) := by
    show splitLines (trimRight (trimLeft x)) = _
    conv_lhs => rw [← hjoin1]
    exact dropTrimR_spec hL1' hL2'
  intro l hl
  rw [hstep2] at hl
  obtain ⟨m, hm, hmt⟩ := mem_dropTrimR hl
  obtain ⟨m0, hm0, hmt0⟩ := mem_dropTrimL hm
  rw [isTxnControlLine_congr hmt, isTxnControlLine_congr hmt0]
  exact h m0 hm0

theorem noMarkerLines_nil : noMarkerLines [] := by
  intro l hl
  have : l = [] := by simpa [splitLines] using hl
  rw [this]
  decide

theorem noMarkerLines_strip (s : List Char) :
    noMarkerLines (stripTransactionStatements s) := by
  unfold stripTransactionStatements
  rcases hF : (splitLines s).filter (fun l => ! isTxnControlLine l) with _ | ⟨f, fs⟩
  · show noMarkerLines (trimSpace (joinLines []))
    exact noMarkerLines_nil
  · apply noMarkerLines_trimSpace
    intro l hl
    rw [splitLines_joinLines (by simp)
      (fun y hy => no_newline_of_mem_splitLines (List.mem_of_mem_filter (hF ▸ hy)))] at hl
    have := List.of_mem_filter (hF ▸ hl)
    simpa using this

theorem strip_eq_self {x : List Char} (h1 : noMarkerLines x) (h2 : trimSpace x = x) :
    stripTransactionStatements x = x := by
  unfold stripTransactionStatements
  have hfilter : (splitLines x).filter (fun l => ! isTxnControlLine l) = splitLines x :=
    List.filter_eq_self.mpr (fun l hl => by rw [h1 l hl]; rfl)
  rw [hfilter, joinLines_splitLines, h2]

theorem trimSpace_strip (s : List Char) :
    trimSpace (stripTransactionStatements s) = stripTransactionStatements s := by
  unfold stripTransactionStatements
  exact trimSpace_idem _

/-- Claim C10: the transaction-control stripping transform is
idempotent: for every string `s`, stripping the result of stripping `s`
returns it unchanged. -/
theorem claim_C10_strip_idempotent (s : List Char) :
    stripTransactionStatements (stripTransactionStatements s) = stripTransactionStatements s :=
  strip_eq_self (noMarkerLines_strip s) (trimSpace_strip s)

/-! Shape of the statements produced by the splitter. -/

theorem flushStmt_good {stmts : List (List Char)} {cur : List Char}
    (h1 : ∀ s ∈ stmts, trimSpace s = s ∧ s ≠ [] ∧ s ≠ [';']) :
    ∀ s ∈ flushStmt stmts cur, trimSpace s = s ∧ s ≠ [] ∧ s ≠ [';'] := by
  intro s hs
  simp only [flushStmt] at hs
  by_cases hc : trimSpace cur ≠ [] ∧ trimSpace cur ≠ [';']
  · rw [if_pos hc] at hs
    rcases List.mem_append.mp hs with hm | hm
    · exact h1 s hm
    · have heq : s = trimSpace cur := by simpa using hm
      subst heq
      exact ⟨trimSpace_idem cur, hc.1, hc.2⟩
  · rw [if_neg hc] at hs
    exact h1 s hs

theorem finalFlush_good {stmts : List (List Char)} {cur : List Char}
    (h1 : ∀ s ∈ stmts, trimSpace s = s ∧ s ≠ [] ∧ s ≠ [';'])
    (h2 : ';' ∈ cur → '$' ∈ cur) :
    ∀ s ∈ (if trimSpace cur ≠ [] then stmts ++ [trimSpace cur] else stmts),
      trimSpace s = s ∧ s ≠ [] ∧ s ≠ [';'] := by
  intro s hs
  by_cases hc : trimSpace cur ≠ []
  · rw [if_pos hc] at hs
    rcases List.mem_append.mp hs with hm | hm
    · exact h1 s hm
    · have heq : s = trimSpace cur := by simpa using hm
      subst heq
      refine ⟨trimSpace_idem cur, hc, ?_⟩
      intro heq2
      have hsemi : ';' ∈ cur := mem_of_mem_trimSpace (by rw [heq2]; simp)
      have hdollar : '$' ∈ trimSpace cur := mem_trimSpace_of_mem (h2 hsemi) (by decide)
      rw [heq2] at hdollar
      exact absurd (List.mem_singleton.mp hdollar) (by decide)
  · rw [if_neg hc] at hs
    exact h1 s hs

theorem splitLoop_good :
    ∀ (fuel : Nat) (inQ : Bool) (tag : List Char) (stmts : List (List Char))
      (cur rest : List Char),
    (∀ s ∈ stmts, trimSpace s = s ∧ s ≠ [] ∧ s ≠ [';']) →
    (';' ∈ cur → '$' ∈ cur) →
    (inQ = true → '$' ∈ cur) →
    ∀ s ∈ splitLoop fuel inQ tag stmts cur rest,
      trimSpace s = s ∧ s ≠ [] ∧ s ≠ [';'] := by
  intro fuel
  induction fuel with
  | zero =>
    intro inQ tag stmts cur rest h1 h2 _ s hs
    cases rest with
    | nil =>
      simp only [splitLoop] at hs
      exact finalFlush_good h1 h2 s hs
    | cons c rs =>
      simp only [splitLoop] at hs
      exact finalFlush_good h1 h2 s hs
  | succ n ih =>
    intro inQ tag stmts cur rest h1 h2 h3 s hs
    cases rest with
    | nil =>
      simp only [splitLoop] at hs
      exact finalFlush_good h1 h2 s hs
    | cons c rs =>
      rw [splitLoop] at hs
      by_cases hq : ¬ inQ = true ∧ c = '$'
      · rw [if_pos hq] at hs
        by_cases hm : '$' ∈ rs
        · rw [if_pos hm] at hs
          refine ih true _ stmts _ _ h1 ?_ ?_ s hs
          · intro _
            exact List.mem_append.mpr (Or.inr (List.mem_cons_self _ _))
          · intro _
            exact List.mem_append.mpr (Or.inr (List.mem_cons_self _ _))
        · rw [if_neg hm] at hs
          refine ih inQ tag stmts _ _ h1 ?_ ?_ s hs
          · intro _
            exact List.mem_append.mpr (Or.inr (hq.2 ▸ List.mem_singleton_self '$'))
          · intro hinq
            exact absurd hinq hq.1
      · rw [if_neg hq] at hs
        by_cases hin : inQ = true
        · rw [if_pos hin] at hs
          by_cases hst : startsWithL tag (c :: rs) = true
          · rw [if_pos hst] at hs
            refine ih false [] stmts _ _ h1 ?_ ?_ s hs
            · intro _
              exact List.mem_append.mpr (Or.inl (h3 hin))
            · intro hfalse
              cases hfalse
          · rw [if_neg hst] at hs
            refine ih inQ tag stmts _ _ h1 ?_ ?_ s hs
            · intro _
              exact List.mem_append.mpr (Or.inl (h3 hin))
            · intro _
              exact List.mem_append.mpr (Or.inl (h3 hin))
        · rw [if_neg hin] at hs
          by_cases hsemi : c = ';'
          · rw [if_pos hsemi] at hs
            refine ih inQ tag _ [] rs (flushStmt_good h1) ?_ ?_ s hs
            · intro hmem
              cases hmem
            · intro hinq
              exact absurd hinq hin
          · rw [if_neg hsemi] at hs
            refine ih inQ tag stmts _ rs h1 ?_ ?_ s hs
            · intro hmem
              rcases List.mem_append.mp hmem with hm2 | hm2
              · exact List.mem_append.mpr (Or.inl (h2 hm2))
              · exact absurd (List.mem_singleton.mp hm2).symm hsemi
            · intro hinq
              exact absurd hinq hin

/-- Claim C8: every statement string returned by `splitSQLStatements` is
non-empty after trimming whitespace and is never a bare semicolon. -/
theorem claim_C8_split_statements_nonempty {sql s : List Char}
    (h : s ∈ splitSQLStatements sql) : trimSpace s ≠ [] ∧ s ≠ [';'] := by
  have hg := splitLoop_good (2 * sql.length + 1) false [] [] [] sql
    (by intro s hs; cases hs) (by intro hm; cases hm) (by intro hf; cases hf) s h
  exact ⟨by rw [hg.1]; exact hg.2.1, hg.2.2⟩

/-- Witness for claim C8 at a concrete script. -/
theorem claim_C8_witness :
    "a;".toList ∈ splitSQLStatements "a; b;".toList ∧
      (trimSpace "a;".toList ≠ [] ∧ "a;".toList ≠ [';']) :=
  ⟨by decide, @claim_C8_split_statements_nonempty "a; b;".toList "a;".toList (by decide)⟩

/-- Claim C1 (refuted, code bug): on a script made of a labeled
dollar-delimited block (with interior semicolons) followed by one
trailing statement, `splitSQLStatements` is claimed to return exactly
two statements.  It returns one: at the closing `$body$` the Go code
resets `dollarTag` to the empty string before advancing `i` by
`len(dollarTag)`, so the scan does not move, re-reads the closing tag as
a fresh opening tag (duplicating it in the output) and stays in
dollar-quote state for the remainder of the script, so the final `;`
never splits. -/
theorem claim_C1_split_block_bug :
    splitSQLStatements c1Script = ["$body$ x; y; $body$$body$;\nSELECT 1;".toList] ∧
      (splitSQLStatements c1Script).length ≠ 2 := by
  decide

/-- Code predicate and spec predicate for transaction-control lines
agree. -/
theorem isTxnControlLine_eq_spec (l : List Char) :
    isTxnControlLine l = specTxnControlLine l := by
  simp only [isTxnControlLine, specTxnControlLine, ciEq]
  rw [(by decide : "begin".toList.map toUpperChar = "BEGIN".toList),
      (by decide : "begin;".toList.map toUpperChar = "BEGIN;".toList),
      (by decide : "commit".toList.map toUpperChar = "COMMIT".toList),
      (by decide : "commit;".toList.map toUpperChar = "COMMIT;".toList)]
  cases h1 : (trimSpace l).map toUpperChar == "BEGIN;".toList <;>
    cases h2 : (trimSpace l).map toUpperChar == "COMMIT;".toList <;>
      cases h3 : (trimSpace l).map toUpperChar == "BEGIN".toList <;>
        cases h4 : (trimSpace l).map toUpperChar == "COMMIT".toList <;> rfl

/-- Inversion of a successful `ApplyMigration`: the only success path
appends exactly one ledger row, whose checksum is the digest of the
stripped script. -/
theorem ApplyMigration_ok_ledger {σ : Type} (exec : σ → List Char → Option σ)
    (db : DB σ) (m : Migration) (db' : DB σ)
    (h : ApplyMigration exec db m = .ok db') :
    db'.ledger = db.ledger ++
      [⟨m.Version, m.Name, CalculateChecksum (stripTransactionStatements m.SQL)⟩] := by
  simp only [ApplyMigration] at h
  split at h
  · cases h
  · split at h
    · cases h
    · cases h
      rfl

/-- Claim C6: the stripping transform removes exactly the lines whose
trimmed, case-insensitive content is a bare BEGIN or COMMIT marker with
or without trailing semicolon (stated against the spec-worded predicate
`specTxnControlLine`); the checksum `ApplyMigration` records is the
digest of the stripped script; and on a script that contains such lines
this differs from the digest of the original text. -/
theorem claim_C6_strip_and_recorded_checksum :
    (∀ sql : List Char,
      stripTransactionStatements sql =
        trimSpace (joinLines ((splitLines sql).filter (fun l => ! specTxnControlLine l)))) ∧
    (∀ (σ : Type) (exec : σ → List Char → Option σ) (db : DB σ) (m : Migration) (db' : DB σ),
      ApplyMigration exec db m = .ok db' →
      db'.ledger = db.ledger ++
        [⟨m.Version, m.Name, CalculateChecksum (stripTransactionStatements m.SQL)⟩]) ∧
    CalculateChecksum (stripTransactionStatements s6Script) ≠ CalculateChecksum s6Script := by
  refine ⟨?_, ?_, ?_⟩
  · intro sql
    unfold stripTransactionStatements
    rw [List.filter_congr (fun l _ => by rw [isTxnControlLine_eq_spec])]
  · intro σ exec db m db' h
    exact ApplyMigration_ok_ledger exec db m db' h
  · decide

/-- Witness for claim C6 at a concrete migration. -/
theorem claim_C6_witness :
    ∃ db' : DB Unit, ApplyMigration execOK db0U mig6 = .ok db' ∧
      db'.ledger = db0U.ledger ++
        [⟨mig6.Version, mig6.Name,
          CalculateChecksum (stripTransactionStatements mig6.SQL)⟩] := by
  have h : ApplyMigration execOK db0U mig6 =
      .ok ⟨(), [⟨mig6.Version, mig6.Name,
        CalculateChecksum (stripTransactionStatements mig6.SQL)⟩]⟩ := by
    rfl
  exact ⟨_, h, claim_C6_strip_and_recorded_checksum.2.1 Unit execOK db0U mig6 _ h⟩

/-- Claim C9: a migration whose script strips and splits to zero
statements is still recorded and committed: `ApplyMigration` executes
nothing, inserts the ledger row and succeeds. -/
theorem claim_C9_empty_migration_recorded {σ : Type} (exec : σ → List Char → Option σ)
    (db : DB σ) (m : Migration)
    (h1 : splitSQLStatements (stripTransactionStatements m.SQL) = [])
    (h2 : db.ledger.any (fun e => e.version == m.Version && e.name == m.Name) = false) :
    ApplyMigration exec db m = .ok ⟨db.schema,
      db.ledger ++
        [⟨m.Version, m.Name, CalculateChecksum (stripTransactionStatements m.SQL)⟩]⟩ := by
  simp only [ApplyMigration, h1, execStatements, h2]
  simp

/-- Witness for claim C9 at a concrete migration that is only
transaction control. -/
theorem claim_C9_witness :
    splitSQLStatements (stripTransactionStatements mig9.SQL) = [] ∧
      ApplyMigration execOK db0U mig9 = .ok ⟨db0U.schema,
        db0U.ledger ++
          [⟨mig9.Version, mig9.Name,
            CalculateChecksum (stripTransactionStatements mig9.SQL)⟩]⟩ :=
  ⟨by decide, claim_C9_empty_migration_recorded execOK db0U mig9 (by decide) (by decide)⟩

/-! Checksum validation lemmas. -/

theorem validate_none_iff (ledger : List LedgerEntry) (migs : List Migration) :
    ValidateChecksums ledger migs = none ↔
      ∀ m ∈ migs, ∀ e, lookupApplied ledger m.Version = some e →
        (CalculateChecksum (stripTransactionStatements m.SQL) = e.checksum ∨
          CalculateChecksum m.SQL = e.checksum) := by
  induction migs with
  | nil => simp [ValidateChecksums]
  | cons m rest ih =>
    rcases hl : lookupApplied ledger m.Version with _ | e
    · simp only [ValidateChecksums, hl]
      rw [ih]
      constructor
      · intro h m' hm' e' he'
        rcases List.mem_cons.mp hm' with rfl | hm2
        · rw [hl] at he'
          cases he'
        · exact h m' hm2 e' he'
      · intro h m' hm2 e' he'
        exact h m' (List.mem_cons_of_mem _ hm2) e' he'
    · simp only [ValidateChecksums, hl]
      by_cases hmis : CalculateChecksum (stripTransactionStatements m.SQL) ≠ e.checksum
          ∧ CalculateChecksum m.SQL ≠ e.checksum
      · rw [if_pos hmis]
        constructor
        · intro h
          cases h
        · intro h
          rcases h m (List.mem_cons_self _ _) e hl with h1 | h1
          · exact absurd h1 hmis.1
          · exact absurd h1 hmis.2
      · rw [if_neg hmis]
        rw [ih]
        constructor
        · intro h m' hm' e' he'
          rcases List.mem_cons.mp hm' with rfl | hm2
          · rw [hl] at he'
            injection he' with he2
            subst he2
            rcases Decidable.not_and_iff_or_not.mp hmis with h1 | h1
            · exact Or.inl (Decidable.not_not.mp h1)
            · exact Or.inr (Decidable.not_not.mp h1)
          · exact h m' hm2 e' he'
        · intro h m' hm2 e' he'
          exact h m' (List.mem_cons_of_mem _ hm2) e' he'

theorem validate_some_inv (ledger : List LedgerEntry) (migs : List Migration)
    (er : RunError) (h : ValidateChecksums ledger migs = some er) :
    ∃ m ∈ migs, ∃ e, lookupApplied ledger m.Version = some e ∧
      CalculateChecksum (stripTransactionStatements m.SQL) ≠ e.checksum ∧
      CalculateChecksum m.SQL ≠ e.checksum ∧
      er = .checksumMismatch m.Version m.Name := by
  induction migs with
  | nil => cases h
  | cons m rest ih =>
    rcases hl : lookupApplied ledger m.Version with _ | e
    · simp only [ValidateChecksums, hl] at h
      obtain ⟨m', hm', rest'⟩ := ih h
      exact ⟨m', List.mem_cons_of_mem _ hm', rest'⟩
    · simp only [ValidateChecksums, hl] at h
      by_cases hmis : CalculateChecksum (stripTransactionStatements m.SQL) ≠ e.checksum
          ∧ CalculateChecksum m.SQL ≠ e.checksum
      · rw [if_pos hmis] at h
        injection h with h2
        exact ⟨m, List.mem_cons_self _ _, e, hl, hmis.1, hmis.2, h2.symm⟩
      · rw [if_neg hmis] at h
        obtain ⟨m', hm', rest'⟩ := ih h
        exact ⟨m', List.mem_cons_of_mem _ hm', rest'⟩

/-- Claim C2: for migrations present in the applied ledger, validation
passes exactly when the stored checksum equals the digest of the
stripped script or of the raw script; and when some applied migration
mismatches both, `Run` stops with a checksum-mismatch error naming a
mismatching migration and leaves the store untouched (zero applied,
empty trace). -/
theorem claim_C2_checksum_validation :
    (∀ (ledger : List LedgerEntry) (migs : List Migration),
      ValidateChecksums ledger migs = none ↔
        ∀ m ∈ migs, ∀ e, lookupApplied ledger m.Version = some e →
          (CalculateChecksum (stripTransactionStatements m.SQL) = e.checksum ∨
            CalculateChecksum m.SQL = e.checksum)) ∧
    (∀ (σ : Type) (exec : σ → List Char → Option σ) (entries : List DirEntry)
        (db : DB σ) (migs : List Migration) (m : Migration) (e : LedgerEntry),
      scanMigrationFiles entries = .ok migs → m ∈ migs →
      lookupApplied db.ledger m.Version = some e →
      CalculateChecksum (stripTransactionStatements m.SQL) ≠ e.checksum →
      CalculateChecksum m.SQL ≠ e.checksum →
      ∃ v nm, Run exec entries db = ⟨db, 0, [], some (.checksumMismatch v nm)⟩ ∧
        ∃ m' ∈ migs, m'.Version = v ∧ m'.Name = nm ∧ ∃ e',
          lookupApplied db.ledger v = some e' ∧
          CalculateChecksum (stripTransactionStatements m'.SQL) ≠ e'.checksum ∧
          CalculateChecksum m'.SQL ≠ e'.checksum) := by
  refine ⟨validate_none_iff, ?_⟩
  intro σ exec entries db migs m e hscan hm hlook h1 h2
  have hne : migs.isEmpty = false := by
    cases migs
    · cases hm
    · rfl
  rcases hv : ValidateChecksums db.ledger migs with _ | er
  · exfalso
    rcases (validate_none_iff db.ledger migs).mp hv m hm e hlook with hc | hc
    · exact h1 hc
    · exact h2 hc
  · obtain ⟨m', hm', e', hl', hcs1, hcs2, her⟩ := validate_some_inv db.ledger migs er hv
    refine ⟨m'.Version, m'.Name, ?_, m', hm', rfl, rfl, e', hl', hcs1, hcs2⟩
    simp only [Run, hscan, hne, Bool.false_eq_true, if_false, hv, her]

/-- Witness for claim C2: a stored checksum that matches neither digest
makes `Run` abort with the mismatch error and change nothing. -/
theorem claim_C2_witness :
    ∃ v nm, Run execOK entriesSingle dbBadChecksum =
        ⟨dbBadChecksum, 0, [], some (.checksumMismatch v nm)⟩ ∧
      ∃ m' ∈ ([⟨1, "a".toList, "a;".toList⟩] : List Migration),
        m'.Version = v ∧ m'.Name = nm ∧ ∃ e',
          lookupApplied dbBadChecksum.ledger v = some e' ∧
          CalculateChecksum (stripTransactionStatements m'.SQL) ≠ e'.checksum ∧
          CalculateChecksum m'.SQL ≠ e'.checksum :=
  claim_C2_checksum_validation.2 Unit execOK entriesSingle dbBadChecksum
    [⟨1, "a".toList, "a;".toList⟩] ⟨1, "a".toList, "a;".toList⟩
    ⟨1, "a".toList, "notadigest".toList⟩
    (by rfl) (by decide) (by decide) (by decide) (by decide)

/-! Abort behaviour of the apply loop. -/

theorem ApplyMigration_error_inv {σ : Type} (exec : σ → List Char → Option σ)
    (db : DB σ) (m : Migration) (er : RunError)
    (h : ApplyMigration exec db m = .error er) :
    (∃ k, er = .applyError m.Version m.Name k ∧
      execStatements exec db.schema
        (splitSQLStatements (stripTransactionStatements m.SQL)) 0 = .error k) ∨
    er = .recordError m.Version m.Name := by
  simp only [ApplyMigration] at h
  split at h
  · next k heq =>
    cases h
    exact Or.inl ⟨k, rfl, heq⟩
  · split at h
    · cases h
      exact Or.inr rfl
    · cases h

theorem runLoop_applyError {σ : Type} (exec : σ → List Char → Option σ)
    (applied : Int → Bool) (v : Int) (nm : List Char) (k : Nat) :
    ∀ (migs : List Migration) (db : DB σ) (n : Nat) (tr : List Migration),
    (runLoop exec applied migs db n tr).err = some (.applyError v nm k) →
    migs.Pairwise (fun a b => a.Version < b.Version) →
    (∃ m ∈ migs, m.Version = v ∧ m.Name = nm) ∧ applied v = false ∧
    ∃ newE, (runLoop exec applied migs db n tr).db.ledger = db.ledger ++ newE ∧
      (∀ e ∈ newE, e.version < v) ∧
      (∀ mi ∈ (runLoop exec applied migs db n tr).trace, mi ∈ tr ∨ mi.Version ≤ v) := by
  intro migs
  induction migs with
  | nil =>
    intro db n tr h _
    cases h
  | cons m0 rest ih =>
    intro db n tr h hpw
    rcases hpw with _ | ⟨hrel, hpw'⟩
    by_cases ha : applied m0.Version = true
    · have hred : runLoop exec applied (m0 :: rest) db n tr = runLoop exec applied rest db n tr := by
        simp only [runLoop, ha, if_true]
      rw [hred] at h ⊢
      obtain ⟨⟨m, hm, hmv, hmn⟩, hap, newE, hled, hlt, htr⟩ := ih db n tr h hpw'
      exact ⟨⟨m, List.mem_cons_of_mem _ hm, hmv, hmn⟩, hap, newE, hled, hlt, htr⟩
    · have ha' : applied m0.Version = false := by
        cases hx : applied m0.Version
        · rfl
        · exact absurd hx ha
      rcases happ : ApplyMigration exec db m0 with er | db'
      · have hred : runLoop exec applied (m0 :: rest) db n tr = ⟨db, n, tr ++ [m0], some er⟩ := by
          simp only [runLoop, ha', Bool.false_eq_true, if_false, happ]
        rw [hred] at h ⊢
        simp only at h
        injection h with h2
        subst h2
        rcases ApplyMigration_error_inv exec db m0 _ happ with ⟨k', hk, _⟩ | hk
        · injection hk with hv1 hv2 hv3
          refine ⟨⟨m0, List.mem_cons_self _ _, hv1.symm, hv2.symm⟩,
            by rw [hv1]; exact ha', [], by simp, by simp, ?_⟩
          intro mi hmi
          rcases List.mem_append.mp hmi with hmi2 | hmi2
          · exact Or.inl hmi2
          · have hmi3 : mi = m0 := List.mem_singleton.mp hmi2
            exact Or.inr (by rw [hmi3, ← hv1])
        · cases hk
      · have hred : runLoop exec applied (m0 :: rest) db n tr =
            runLoop exec applied rest db' (n + 1) (tr ++ [m0]) := by
          simp only [runLoop, ha', Bool.false_eq_true, if_false, happ]
        rw [hred] at h ⊢
        obtain ⟨⟨m, hm, hmv, hmn⟩, hap, newE, hled, hlt, htr⟩ := ih db' (n + 1) (tr ++ [m0]) h hpw'
        have hm0v : m0.Version < v := hmv ▸ hrel m hm
        refine ⟨⟨m, List.mem_cons_of_mem _ hm, hmv, hmn⟩, hap,
          ⟨m0.Version, m0.Name, CalculateChecksum (stripTransactionStatements m0.SQL)⟩ :: newE,
          ?_, ?_, ?_⟩
        · rw [hled, ApplyMigration_ok_ledger exec db m0 db' happ, List.append_assoc]
          rfl
        · intro e he
          rcases List.mem_cons.mp he with rfl | he2
          · exact hm0v
          · exact hlt e he2
        · intro mi hmi
          rcases htr mi hmi with hmi2 | hmi2
          · rcases List.mem_append.mp hmi2 with hmi3 | hmi3
            · exact Or.inl hmi3
            · have : mi = m0 := List.mem_singleton.mp hmi3
              exact Or.inr (by rw [this]; exact le_of_lt hm0v)
          · exact Or.inr hmi2

/-- Claim C3: when a migration's k-th split statement fails,
`ApplyMigration` returns the apply error carrying version, name and the
1-based index (the `Except.error` result models the rolled-back
transaction: no schema change and no ledger row of this migration
survive); and a `Run` that ends in that error has recorded nothing for
the failing version, every newly recorded version is strictly below it,
and no migration beyond the failing one was attempted. -/
theorem claim_C3_failing_statement_aborts :
    (∀ (σ : Type) (exec : σ → List Char → Option σ) (db : DB σ) (m : Migration) (k : Nat),
      execStatements exec db.schema
          (splitSQLStatements (stripTransactionStatements m.SQL)) 0 = .error k →
      ApplyMigration exec db m = .error (.applyError m.Version m.Name k)) ∧
    (∀ (σ : Type) (exec : σ → List Char → Option σ) (entries : List DirEntry)
        (db : DB σ) (migs : List Migration) (v : Int) (nm : List Char) (k : Nat),
      scanMigrationFiles entries = .ok migs →
      migs.Pairwise (fun a b => a.Version < b.Version) →
      (Run exec entries db).err = some (.applyError v nm k) →
      (∀ e ∈ db.ledger, e.version ≠ v) ∧
      (∀ e ∈ (Run exec entries db).db.ledger, e.version ≠ v) ∧
      (∀ e ∈ (Run exec entries db).db.ledger, e ∈ db.ledger ∨ e.version < v) ∧
      (∀ mi ∈ (Run exec entries db).trace, mi.Version ≤ v)) := by
  constructor
  · intro σ exec db m k hfail
    simp only [ApplyMigration, hfail]
  · intro σ exec entries db migs v nm k hscan hpw herr
    rcases hmigs : migs.isEmpty with _ | _
    · rcases hv : ValidateChecksums db.ledger migs with _ | er
      · have hrun : Run exec entries db =
            runLoop exec (fun w => (lookupApplied db.ledger w).isSome) migs db 0 [] := by
          simp only [Run, hscan, hmigs, Bool.false_eq_true, if_false, hv]
        rw [hrun] at herr ⊢
        obtain ⟨⟨m, hm, hmv, hmn⟩, hap, newE, hled, hlt, htr⟩ :=
          runLoop_applyError exec _ v nm k migs db 0 [] herr hpw
        have hnone : lookupApplied db.ledger v = none := by
          cases hx : lookupApplied db.ledger v
          · rfl
          · rw [hx] at hap
            cases hap
        have hfst : ∀ e ∈ db.ledger, e.version ≠ v := by
          intro e he heq
          have := List.find?_eq_none.mp hnone e he
          simp [heq] at this
        refine ⟨hfst, ?_, ?_, ?_⟩
        · intro e he
          rw [hled] at he
          rcases List.mem_append.mp he with he2 | he2
          · exact hfst e he2
          · exact ne_of_lt (hlt e he2)
        · intro e he
          rw [hled] at he
          rcases List.mem_append.mp he with he2 | he2
          · exact Or.inl he2
          · exact Or.inr (hlt e he2)
        · intro mi hmi
          rcases htr mi hmi with hmi2 | hmi2
          · cases hmi2
          · exact hmi2
      · exfalso
        have : Run exec entries db = ⟨db, 0, [], some er⟩ := by
          simp only [Run, hscan, hmigs, Bool.false_eq_true, if_false, hv]
        rw [this] at herr
        simp only at herr
        injection herr with h2
        obtain ⟨m', _, e', _, _, _, her⟩ := validate_some_inv db.ledger migs er hv
        rw [her] at h2
        cases h2
    · exfalso
      have : Run exec entries db = ⟨db, 0, [], none⟩ := by
        simp only [Run, hscan, hmigs, if_true]
      rw [this] at herr
      cases herr

/-- Witness for claim C3 at a concrete failing migration. -/
theorem claim_C3_witness :
    (Run execFailY entriesFailing db0U).err = some (.applyError 1 "m".toList 2) ∧
      (∀ e ∈ (Run execFailY entriesFailing db0U).db.ledger, e.version ≠ 1) :=
  ⟨by decide,
    (claim_C3_failing_statement_aborts.2 Unit execFailY entriesFailing db0U
      [⟨1, "m".toList, "x;\ny;\nz;".toList⟩] 1 "m".toList 2
      (by rfl) (by simp) (by decide)).2.1⟩

/-! Sortedness of the scanner output and order of application. -/

theorem versionLE_le {a b : Migration} (h : versionLE a b = true) : a.Version ≤ b.Version := by
  simpa [versionLE, decide_eq_true_eq] using h

theorem versionLE_not_le {a b : Migration} (h : versionLE a b = false) :
    b.Version ≤ a.Version := by
  simp only [versionLE, decide_eq_false_iff_not] at h
  exact le_of_not_le h

theorem mem_insertSorted {m x : Migration} {l : List Migration} :
    x ∈ insertSorted m l ↔ x = m ∨ x ∈ l := by
  induction l with
  | nil => simp [insertSorted]
  | cons y ys ih =>
    rw [insertSorted]
    by_cases hle : versionLE m y = true
    · rw [if_pos hle]
      simp [List.mem_cons]
    · rw [if_neg hle]
      simp only [List.mem_cons, ih]
      tauto

theorem pairwise_insertSorted (m : Migration) (l : List Migration)
    (h : l.Pairwise (fun a b => a.Version ≤ b.Version)) :
    (insertSorted m l).Pairwise (fun a b => a.Version ≤ b.Version) := by
  induction l with
  | nil => simp [insertSorted]
  | cons x xs ih =>
    rcases h with _ | ⟨hx, hxs⟩
    rw [insertSorted]
    by_cases hle : versionLE m x = true
    · rw [if_pos hle]
      refine List.Pairwise.cons ?_ (List.Pairwise.cons hx hxs)
      intro y hy
      rcases List.mem_cons.mp hy with rfl | hy2
      · exact versionLE_le hle
      · exact le_trans (versionLE_le hle) (hx y hy2)
    · rw [if_neg hle]
      refine List.Pairwise.cons ?_ (ih hxs)
      intro y hy
      rcases mem_insertSorted.mp hy with rfl | hy2
      · exact versionLE_not_le (by revert hle; cases versionLE y x <;> simp)
      · exact hx y hy2

theorem sortByVersion_pairwise (l : List Migration) :
    (sortByVersion l).Pairwise (fun a b => a.Version ≤ b.Version) := by
  induction l with
  | nil => simp [sortByVersion]
  | cons x xs ih => exact pairwise_insertSorted x _ ih

theorem scan_sorted {entries : List DirEntry} {migs : List Migration}
    (h : scanMigrationFiles entries = .ok migs) :
    migs.Pairwise (fun a b => a.Version ≤ b.Version) := by
  unfold scanMigrationFiles at h
  rcases hs : scanFiles entries with er | ms
  · rw [hs] at h
    cases h
  · rw [hs] at h
    injection h with h2
    rw [← h2]
    exact sortByVersion_pairwise ms

theorem runLoop_trace_sublist {σ : Type} (exec : σ → List Char → Option σ)
    (applied : Int → Bool) :
    ∀ (migs : List Migration) (db : DB σ) (n : Nat) (tr : List Migration),
    ∃ t, (runLoop exec applied migs db n tr).trace = tr ++ t ∧ t.Sublist migs := by
  intro migs
  induction migs with
  | nil =>
    intro db n tr
    exact ⟨[], by simp [runLoop], List.Sublist.refl []⟩
  | cons m0 rest ih =>
    intro db n tr
    by_cases ha : applied m0.Version = true
    · have hred : runLoop exec applied (m0 :: rest) db n tr =
          runLoop exec applied rest db n tr := by
        simp only [runLoop, ha, if_true]
      rw [hred]
      obtain ⟨t, ht, hsub⟩ := ih db n tr
      exact ⟨t, ht, hsub.cons m0⟩
    · have ha' : applied m0.Version = false := by
        cases hx : applied m0.Version
        · rfl
        · exact absurd hx ha
      rcases happ : ApplyMigration exec db m0 with er | db'
      · have hred : runLoop exec applied (m0 :: rest) db n tr =
            ⟨db, n, tr ++ [m0], some er⟩ := by
          simp only [runLoop, ha', Bool.false_eq_true, if_false, happ]
        rw [hred]
        exact ⟨[m0], rfl, by simp⟩
      · have hred : runLoop exec applied (m0 :: rest) db n tr =
            runLoop exec applied rest db' (n + 1) (tr ++ [m0]) := by
          simp only [runLoop, ha', Bool.false_eq_true, if_false, happ]
        rw [hred]
        obtain ⟨t, ht, hsub⟩ := ih db' (n + 1) (tr ++ [m0])
        exact ⟨m0 :: t, by rw [ht, List.append_assoc]; rfl, hsub.cons₂ m0⟩

/-- Claim C4 (amended): the scanner returns migrations sorted ascending
by version for every listing order, and `Run` hands migrations to
`ApplyMigration` in strictly ascending version order provided the
discovered versions are pairwise distinct (with duplicate versions the
order is only non-strict: see the counterexample). -/
theorem claim_C4_sorted_scan_and_ordered_run :
    (∀ (entries : List DirEntry) (migs : List Migration),
      scanMigrationFiles entries = .ok migs →
      migs.Pairwise (fun a b => a.Version ≤ b.Version)) ∧
    (∀ (σ : Type) (exec : σ → List Char → Option σ) (entries : List DirEntry)
        (db : DB σ) (migs : List Migration),
      scanMigrationFiles entries = .ok migs →
      migs.Pairwise (fun a b => a.Version < b.Version) →
      ((Run exec entries db).trace.map (fun m => m.Version)).Pairwise (· < ·)) := by
  constructor
  · intro entries migs h
    exact scan_sorted h
  · intro σ exec entries db migs hscan hpw
    rcases hmigs : migs.isEmpty with _ | _
    · rcases hv : ValidateChecksums db.ledger migs with _ | er
      · have hrun : Run exec entries db =
            runLoop exec (fun w => (lookupApplied db.ledger w).isSome) migs db 0 [] := by
          simp only [Run, hscan, hmigs, Bool.false_eq_true, if_false, hv]
        rw [hrun]
        obtain ⟨t, ht, hsub⟩ :=
          runLoop_trace_sublist exec (fun w => (lookupApplied db.ledger w).isSome) migs db 0 []
        rw [ht, List.nil_append]
        exact (hpw.sublist hsub).map _ (fun a b hab => hab)
      · have : Run exec entries db = ⟨db, 0, [], some er⟩ := by
          simp only [Run, hscan, hmigs, Bool.false_eq_true, if_false, hv]
        rw [this]
        simp
    · have : Run exec entries db = ⟨db, 0, [], none⟩ := by
        simp only [Run, hscan, hmigs, if_true]
      rw [this]
      simp

/-- Witness for claim C4's strict-order part at a distinct-version
listing. -/
theorem claim_C4_witness :
    scanMigrationFiles entriesFailing = .ok [⟨1, "m".toList, "x;\ny;\nz;".toList⟩] ∧
      ((Run execOK entriesFailing db0U).trace.map (fun m => m.Version)).Pairwise (· < ·) :=
  ⟨by rfl,
    claim_C4_sorted_scan_and_ordered_run.2 Unit execOK entriesFailing db0U
      [⟨1, "m".toList, "x;\ny;\nz;".toList⟩] (by rfl) (by simp)⟩

/-- Counterexample to claim C4 as frozen: with two discovered files
sharing version 1 the run succeeds but applies two migrations of equal
version, so the sequence of applied versions `[1, 1]` is not strictly
ascending. -/
theorem claim_C4_counterexample :
    (Run execOK entriesDup db0U).err = none ∧
      (Run execOK entriesDup db0U).trace.map (fun m => m.Version) = [1, 1] ∧
      ¬ ((Run execOK entriesDup db0U).trace.map (fun m => m.Version)).Pairwise (· < ·) := by
  refine ⟨by decide, by decide, fun h => ?_⟩
  rw [(by decide : (Run execOK entriesDup db0U).trace.map (fun m => m.Version) = [1, 1])] at h
  exact absurd ((List.pairwise_cons.mp h).1 1 (List.mem_singleton_self 1)) (lt_irrefl 1)

/-! Behaviour of a successful run and of a repeated run. -/

theorem runLoop_ok_charact {σ : Type} (exec : σ → List Char → Option σ)
    (applied : Int → Bool) :
    ∀ (migs : List Migration) (db : DB σ) (n : Nat) (tr : List Migration),
    (runLoop exec applied migs db n tr).err = none →
    (runLoop exec applied migs db n tr).db.ledger =
        db.ledger ++ (migs.filter (fun m => ! applied m.Version)).map pendingEntry ∧
    (runLoop exec applied migs db n tr).appliedCount =
        n + (migs.filter (fun m => ! applied m.Version)).length ∧
    (runLoop exec applied migs db n tr).trace =
        tr ++ migs.filter (fun m => ! applied m.Version) := by
  intro migs
  induction migs with
  | nil =>
    intro db n tr _
    simp [runLoop]
  | cons m0 rest ih =>
    intro db n tr herr
    by_cases ha : applied m0.Version = true
    · have hred : runLoop exec applied (m0 :: rest) db n tr =
          runLoop exec applied rest db n tr := by
        simp only [runLoop, ha, if_true]
      rw [hred] at herr ⊢
      have hfil : (m0 :: rest).filter (fun m => ! applied m.Version) =
          rest.filter (fun m => ! applied m.Version) := by
        simp [List.filter_cons, ha]
      rw [hfil]
      exact ih db n tr herr
    · have ha' : applied m0.Version = false := by
        cases hx : applied m0.Version
        · rfl
        · exact absurd hx ha
      have hfil : (m0 :: rest).filter (fun m => ! applied m.Version) =
          m0 :: rest.filter (fun m => ! applied m.Version) := by
        simp [List.filter_cons, ha']
      rcases happ : ApplyMigration exec db m0 with er | db'
      · have hred : runLoop exec applied (m0 :: rest) db n tr =
            ⟨db, n, tr ++ [m0], some er⟩ := by
          simp only [runLoop, ha', Bool.false_eq_true, if_false, happ]
        rw [hred] at herr
        cases herr
      · have hred : runLoop exec applied (m0 :: rest) db n tr =
            runLoop exec applied rest db' (n + 1) (tr ++ [m0]) := by
          simp only [runLoop, ha', Bool.false_eq_true, if_false, happ]
        rw [hred] at herr ⊢
        obtain ⟨h1, h2, h3⟩ := ih db' (n + 1) (tr ++ [m0]) herr
        rw [hfil]
        refine ⟨?_, ?_, ?_⟩
        · rw [h1, ApplyMigration_ok_ledger exec db m0 db' happ, List.append_assoc]
          rfl
        · rw [h2, List.length_cons]
          omega
        · rw [h3, List.append_assoc]
          rfl

theorem runLoop_all_applied {σ : Type} (exec : σ → List Char → Option σ)
    (applied : Int → Bool) :
    ∀ (migs : List Migration) (db : DB σ) (n : Nat) (tr : List Migration),
    (∀ m ∈ migs, applied m.Version = true) →
    runLoop exec applied migs db n tr = ⟨db, n, tr, none⟩ := by
  intro migs
  induction migs with
  | nil =>
    intro db n tr _
    rfl
  | cons m0 rest ih =>
    intro db n tr h
    have ha : applied m0.Version = true := h m0 (List.mem_cons_self _ _)
    have hred : runLoop exec applied (m0 :: rest) db n tr =
        runLoop exec applied rest db n tr := by
      simp only [runLoop, ha, if_true]
    rw [hred]
    exact ih db n tr (fun m hm => h m (List.mem_cons_of_mem _ hm))

theorem lookupApplied_append (l l' : List LedgerEntry) (v : Int) :
    lookupApplied (l ++ l') v = (lookupApplied l v).or (lookupApplied l' v) := by
  simp [lookupApplied, List.find?_append]

theorem find_pendingEntry (pred : Migration → Bool) (m : Migration) :
    ∀ (migs : List Migration),
    migs.Pairwise (fun a b => a.Version ≠ b.Version) → m ∈ migs → pred m = true →
    lookupApplied ((migs.filter pred).map pendingEntry) m.Version = some (pendingEntry m) := by
  intro migs
  induction migs with
  | nil =>
    intro _ hm
    cases hm
  | cons m0 rest ih =>
    intro hpw hm hpred
    rcases hpw with _ | ⟨hrel, hpw'⟩
    rcases List.mem_cons.mp hm with rfl | hm2
    · rw [List.filter_cons, if_pos hpred, List.map_cons]
      show List.find? _ _ = _
      rw [List.find?_cons_of_pos _ (by simp [pendingEntry])]
    · have hne : m0.Version ≠ m.Version := hrel m hm2
      rw [List.filter_cons]
      by_cases hp0 : pred m0 = true
      · rw [if_pos hp0, List.map_cons]
        show List.find? _ _ = _
        rw [List.find?_cons_of_neg _ (by simp [pendingEntry, hne])]
        exact ih hpw' hm2 hpred
      · rw [if_neg hp0]
        exact ih hpw' hm2 hpred

/-- Claim C5 (amended): after a successful run over migrations with
pairwise-distinct versions, a second run over the same source and store
discovers every version in the applied set, passes validation, skips
everything, and reports zero applied with no error and an unchanged
store. -/
theorem claim_C5_second_run_applies_nothing {σ : Type} (exec : σ → List Char → Option σ)
    (entries : List DirEntry) (db : DB σ) (migs : List Migration)
    (hscan : scanMigrationFiles entries = .ok migs)
    (hpw : migs.Pairwise (fun a b => a.Version ≠ b.Version))
    (hok : (Run exec entries db).err = none) :
    Run exec entries (Run exec entries db).db =
      ⟨(Run exec entries db).db, 0, [], none⟩ := by
  rcases hmigs : migs.isEmpty with _ | _
  · rcases hv : ValidateChecksums db.ledger migs with _ | er
    · have hrun1 : Run exec entries db =
          runLoop exec (fun w => (lookupApplied db.ledger w).isSome) migs db 0 [] := by
        simp only [Run, hscan, hmigs, Bool.false_eq_true, if_false, hv]
      obtain ⟨hled, _, _⟩ := runLoop_ok_charact exec
        (fun w => (lookupApplied db.ledger w).isSome) migs db 0 [] (by rw [← hrun1]; exact hok)
      have hledger1 : (Run exec entries db).db.ledger = db.ledger ++
          (migs.filter (fun m => ! (lookupApplied db.ledger m.Version).isSome)).map
            pendingEntry := by
        rw [hrun1, hled]
      have hval2 : ValidateChecksums (Run exec entries db).db.ledger migs = none := by
        apply (validate_none_iff _ _).mpr
        intro m hm e he
        rw [hledger1, lookupApplied_append] at he
        rcases hl : lookupApplied db.ledger m.Version with _ | e0
        · rw [hl, Option.none_or] at he
          have hpred : (! (lookupApplied db.ledger m.Version).isSome) = true := by
            rw [hl]
            rfl
          rw [find_pendingEntry _ m migs hpw hm hpred] at he
          injection he with he2
          rw [← he2]
          exact Or.inl rfl
        · rw [hl, Option.or_some] at he
          injection he with he2
          rw [← he2]
          exact (validate_none_iff db.ledger migs).mp hv m hm e0 hl
      have hall : ∀ m ∈ migs,
          (lookupApplied (Run exec entries db).db.ledger m.Version).isSome = true := by
        intro m hm
        rw [hledger1, lookupApplied_append]
        rcases hl : lookupApplied db.ledger m.Version with _ | e0
        · rw [Option.none_or]
          have hpred : (! (lookupApplied db.ledger m.Version).isSome) = true := by
            rw [hl]
            rfl
          rw [find_pendingEntry _ m migs hpw hm hpred]
          rfl
        · rfl
      obtain ⟨db1, hdb1⟩ : ∃ db1, (Run exec entries db).db = db1 := ⟨_, rfl⟩
      rw [hdb1] at hval2 hall ⊢
      have hrun2 : Run exec entries db1 =
          runLoop exec (fun w => (lookupApplied db1.ledger w).isSome) migs db1 0 [] := by
        simp only [Run, hscan, hmigs, Bool.false_eq_true, if_false, hval2]
      rw [hrun2]
      exact runLoop_all_applied exec _ migs db1 0 [] hall
    · exfalso
      have hrun1 : Run exec entries db = ⟨db, 0, [], some er⟩ := by
        simp only [Run, hscan, hmigs, Bool.false_eq_true, if_false, hv]
      rw [hrun1] at hok
      cases hok
  · have hrun1 : Run exec entries db = ⟨db, 0, [], none⟩ := by
      simp only [Run, hscan, hmigs, if_true]
    rw [hrun1]
    show Run exec entries db = ⟨db, 0, [], none⟩
    exact hrun1

/-- Witness for claim C5 (amended) at a one-migration source. -/
theorem claim_C5_witness :
    (Run execOK entriesSingle db0U).err = none ∧
      Run execOK entriesSingle (Run execOK entriesSingle db0U).db =
        ⟨(Run execOK entriesSingle db0U).db, 0, [], none⟩ :=
  ⟨by decide,
    claim_C5_second_run_applies_nothing execOK entriesSingle db0U
      [⟨1, "a".toList, "a;".toList⟩] (by rfl) (by simp) (by decide)⟩

/-- Counterexample to claim C5 as frozen: with two discovered files
sharing version 1 the first run succeeds (both are applied, each under
its own `(version, name)` ledger row), but the second run fails checksum
validation, because the single ledger entry the version-keyed lookup
returns for version 1 cannot match both scripts' digests. -/
theorem claim_C5_counterexample :
    (Run execOK entriesDup db0U).err = none ∧
      (Run execOK entriesDup (Run execOK entriesDup db0U).db).err ≠ none := by
  exact ⟨by decide, by decide⟩

/-! Scanner behaviour on malformed filenames. -/

theorem splitN2_len_two {s : List Char} (h : '_' ∈ s) : (splitN2 '_' s).length = 2 := by
  simp [splitN2, h]

theorem splitN2_len_one {s : List Char} (h : '_' ∉ s) : (splitN2 '_' s).length = 1 := by
  simp [splitN2, h]

theorem scanFiles_skip_no_sep (e : DirEntry) (rest : List DirEntry)
    (h1 : e.isDir = false) (h2 : endsWithL ".sql".toList e.name = true)
    (h3 : '_' ∉ e.name) :
    scanFiles (e :: rest) = scanFiles rest := by
  simp only [scanFiles, h1, Bool.false_eq_true, if_false]
  rw [if_neg (not_not_intro h2), if_pos (by rw [splitN2_len_one h3]; omega)]

theorem scanFiles_error_of_bad :
    ∀ entries : List DirEntry,
    (∃ e ∈ entries, e.isDir = false ∧ endsWithL ".sql".toList e.name = true ∧
      '_' ∈ e.name ∧ atoi ((splitN2 '_' e.name).getD 0 []) = none) →
    ∃ f, scanFiles entries = .error (.invalidFilename f) ∧
      ∃ e ∈ entries, e.name = f ∧ e.isDir = false ∧
        endsWithL ".sql".toList e.name = true ∧ '_' ∈ e.name ∧
        atoi ((splitN2 '_' e.name).getD 0 []) = none := by
  intro entries
  induction entries with
  | nil =>
    rintro ⟨e, he, _⟩
    cases he
  | cons e rest ih =>
    rintro ⟨e0, he0, hbad⟩
    by_cases hd : e.isDir = true
    · have hred : scanFiles (e :: rest) = scanFiles rest := by
        simp only [scanFiles, hd, if_true]
      rcases List.mem_cons.mp he0 with rfl | hm
      · rw [hbad.1] at hd
        cases hd
      · obtain ⟨f, herr, e1, hm1, hrest⟩ := ih ⟨e0, hm, hbad⟩
        exact ⟨f, hred ▸ herr, e1, List.mem_cons_of_mem _ hm1, hrest⟩
    · have hd' : e.isDir = false := by
        cases hx : e.isDir
        · rfl
        · exact absurd hx hd
      by_cases hs : endsWithL ".sql".toList e.name = true
      · by_cases hsep : '_' ∈ e.name
        · rcases hat : atoi ((splitN2 '_' e.name).getD 0 []) with _ | v
          · have hred : scanFiles (e :: rest) = .error (.invalidFilename e.name) := by
              simp only [scanFiles, hd', Bool.false_eq_true, if_false]
              rw [if_neg (not_not_intro hs), if_neg (by rw [splitN2_len_two hsep]; omega),
                hat]
            exact ⟨e.name, hred, e, List.mem_cons_self _ _, rfl, hd', hs, hsep, hat⟩
          · rcases List.mem_cons.mp he0 with rfl | hm
            · rw [hbad.2.2.2] at hat
              cases hat
            · obtain ⟨f, herr, e1, hm1, hrest⟩ := ih ⟨e0, hm, hbad⟩
              have hred : scanFiles (e :: rest) = (scanFiles rest).map (fun ms =>
                  ⟨v, trimSuffix ".sql".toList ((splitN2 '_' e.name).getD 1 []),
                    e.content⟩ :: ms) := by
                simp only [scanFiles, hd', Bool.false_eq_true, if_false]
                rw [if_neg (not_not_intro hs), if_neg (by rw [splitN2_len_two hsep]; omega),
                  hat]
              rw [hred, herr]
              exact ⟨f, rfl, e1, List.mem_cons_of_mem _ hm1, hrest⟩
        · have hred := scanFiles_skip_no_sep e rest hd' hs hsep
          rcases List.mem_cons.mp he0 with rfl | hm
          · exact absurd hbad.2.2.1 hsep
          · obtain ⟨f, herr, e1, hm1, hrest⟩ := ih ⟨e0, hm, hbad⟩
            exact ⟨f, hred ▸ herr, e1, List.mem_cons_of_mem _ hm1, hrest⟩
      · have hred : scanFiles (e :: rest) = scanFiles rest := by
          simp only [scanFiles, hd', Bool.false_eq_true, if_false]
          rw [if_pos hs]
        rcases List.mem_cons.mp he0 with rfl | hm
        · exact absurd hbad.2.1 hs
        · obtain ⟨f, herr, e1, hm1, hrest⟩ := ih ⟨e0, hm, hbad⟩
          exact ⟨f, hred ▸ herr, e1, List.mem_cons_of_mem _ hm1, hrest⟩

/-- Claim C7 (amended): a `.sql` file whose name lacks the `_` separator
is silently skipped by the scan (not an error); and whenever the listing
contains a `.sql` file that has the separator but whose leading token is
not an integer `strconv.Atoi` accepts, the scan fails with an
invalid-filename error (carrying no migrations) that names such a
file. -/
theorem claim_C7_invalid_version_token :
    (∀ (e : DirEntry) (rest : List DirEntry),
      e.isDir = false → endsWithL ".sql".toList e.name = true → '_' ∉ e.name →
      scanFiles (e :: rest) = scanFiles rest) ∧
    (∀ entries : List DirEntry,
      (∃ e ∈ entries, e.isDir = false ∧ endsWithL ".sql".toList e.name = true ∧
        '_' ∈ e.name ∧ atoi ((splitN2 '_' e.name).getD 0 []) = none) →
      ∃ f, scanMigrationFiles entries = .error (.invalidFilename f) ∧
        ∃ e ∈ entries, e.name = f ∧ e.isDir = false ∧
          endsWithL ".sql".toList e.name = true ∧ '_' ∈ e.name ∧
          atoi ((splitN2 '_' e.name).getD 0 []) = none) := by
  constructor
  · exact scanFiles_skip_no_sep
  · intro entries hex
    obtain ⟨f, herr, hrest⟩ := scanFiles_error_of_bad entries hex
    refine ⟨f, ?_, hrest⟩
    unfold scanMigrationFiles
    rw [herr]
    rfl

/-- Witness for claim C7 (amended): a listing with one well-formed file
and one file whose version token is not numeric aborts the scan. -/
theorem claim_C7_witness :
    ∃ f, scanMigrationFiles entriesBadVersion = .error (.invalidFilename f) ∧
      ∃ e ∈ entriesBadVersion, e.name = f ∧ e.isDir = false ∧
        endsWithL ".sql".toList e.name = true ∧ '_' ∈ e.name ∧
        atoi ((splitN2 '_' e.name).getD 0 []) = none :=
  claim_C7_invalid_version_token.2 entriesBadVersion (by decide)

/-- Counterexample to claim C7 as frozen: the listing containing only
`nope.sql` — a recognized-extension file that does not begin with a
numeric token followed by the separator — is scanned without any error:
the file is silently skipped and the scan returns an empty migration
list instead of the claimed invalid-filename failure. -/
theorem claim_C7_counterexample :
    scanMigrationFiles entriesNoSep = .ok [] := by
  rfl

end Mig
